import Mathlib

/-!
# Application.cpp: the combined shader file splitter `parseShader`

A shallow embedding of `parseShader` (Application.cpp, lines 14-44) and the
properties of its specification.

* a `std::string` is a list of characters (`Str`);
* the file system is a function from paths to the text of the files that can
  be opened for reading;
* `std::getline` is modelled by `getlines`, which yields the successive lines
  the `while` loop sees;
* the two-element array `std::stringstream ss[2]` is a pair of strings, and
  indexing it (`ss[(int)type]`) is bounds checked: an index other than 0 or 1
  is the fault `Fault.outOfBounds`, the model of the undefined behaviour of
  the C++ expression.
-/

namespace Application

/-- A `std::string`: a sequence of characters. -/
abbrev Str := List Char

/-- The struct `ShaderProgramSource` (lines 14-18). -/
structure ShaderProgramSource where
  VertexSource : Str
  FragmentSource : Str
deriving DecidableEq, Repr

/-- The local `enum class ShaderType` (lines 23-25). -/
inductive ShaderType where
  | NONE
  | VERTEX
  | FRAGMENT
deriving DecidableEq, Repr

/-- The cast `(int)type`: `NONE = -1, VERTEX = 0, FRAGMENT = 1`. -/
def ShaderType.toInt : ShaderType → Int
  | .NONE => -1
  | .VERTEX => 0
  | .FRAGMENT => 1

/-- What can go wrong in the loop: an index outside the array `ss`. -/
inductive Fault where
  | outOfBounds (index : Int)
deriving DecidableEq, Repr

/-- The literal `"#shader"`. -/
def shaderTag : Str := ['#', 's', 'h', 'a', 'd', 'e', 'r']

/-- The literal `"vertex"`. -/
def vertexTag : Str := ['v', 'e', 'r', 't', 'e', 'x']

/-- The literal `"fragment"`. -/
def fragmentTag : Str := ['f', 'r', 'a', 'g', 'm', 'e', 'n', 't']

/-- The call `s.find(pat)` of `std::string`: the position of the first
occurrence of `pat` in `s`, and `none` for `std::string::npos`. -/
def find : Str → Str → Option Nat
  | [], pat => if pat.isPrefixOf [] then some 0 else none
  | c :: cs, pat =>
    if pat.isPrefixOf (c :: cs) then some 0 else (find cs pat).map (· + 1)

/-- The test `s.find(pat) != std::string::npos`. -/
def contains (s pat : Str) : Bool := (find s pat).isSome

/-- The lines that successive calls `getline(stream, line)` yield on the text
`rest`, when `acc` holds the characters of the current line read so far: a
line ends at a newline, which is dropped, and the characters after the last
newline are a line when there is at least one. -/
def getlinesFrom : Str → Str → List Str
  | acc, [] => if acc = [] then [] else [acc]
  | acc, c :: cs =>
    if c = '\n' then acc :: getlinesFrom [] cs else getlinesFrom (acc ++ [c]) cs

/-- The lines the loop `while (getline(stream, line))` sees: none when the
stream could not be opened (`none`), else the lines of the text. -/
def getlines : Option Str → List Str
  | none => []
  | some text => getlinesFrom [] text

/-- The array `std::stringstream ss[2]` (line 28), as its two contents. -/
abbrev Streams := Str × Str

/-- The statement `ss[i] << s`: on the two-element array only the indices 0
and 1 name a stream. -/
def streamAppend (ss : Streams) (i : Int) (s : Str) : Except Fault Streams :=
  if i = 0 then .ok (ss.1 ++ s, ss.2)
  else if i = 1 then .ok (ss.1, ss.2 ++ s)
  else .error (.outOfBounds i)

/-- The local variables the loop changes: `type` and `ss`. -/
structure LoopState where
  type : ShaderType
  ss : Streams
deriving DecidableEq, Repr

/-- The body of the `while` loop (lines 32-40) on one line. -/
def loopBody (st : LoopState) (line : Str) : Except Fault LoopState :=
  if contains line shaderTag then
    if contains line vertexTag then
      .ok { st with type := .VERTEX }
    else if contains line fragmentTag then
      .ok { st with type := .FRAGMENT }
    else
      .ok st
  else
    match streamAppend st.ss st.type.toInt (line ++ ['\n']) with
    | .ok ss => .ok { st with ss := ss }
    | .error e => .error e

/-- The `while` loop (lines 31-41) over the lines that `getline` yields. -/
def loop (st : LoopState) : List Str → Except Fault LoopState
  | [] => .ok st
  | line :: rest =>
    match loopBody st line with
    | .ok st1 => loop st1 rest
    | .error e => .error e

/-- The state before the loop (lines 28-29): `type = NONE`, both streams
empty. -/
def initState : LoopState := { type := .NONE, ss := ([], []) }

/-- The function `parseShader` from the lines of the stream on: the loop,
then `return { ss[0].str(), ss[1].str() }` (line 43). -/
def parseLines (lines : List Str) : Except Fault ShaderProgramSource :=
  match loop initState lines with
  | .ok st => .ok { VertexSource := st.ss.1, FragmentSource := st.ss.2 }
  | .error e => .error e

/-- The function `parseShader` (lines 20-44): `fs filepath` is the text of
the file when `std::ifstream stream(filepath)` opens it, `none` when not. -/
def parseShader (fs : Str → Option Str) (filepath : Str) :
    Except Fault ShaderProgramSource :=
  parseLines (getlines (fs filepath))

/-- The text of lines: each line followed by a newline. -/
def joinLines : List Str → Str
  | [] => []
  | l :: ls => l ++ '\n' :: joinLines ls

/-! ## The selector and the indices of the appends -/

/-- The value of `type` after the loop body has run on `line` (lines 32-37):
only a line with `"#shader"` changes it. -/
def nextType (type : ShaderType) (line : Str) : ShaderType :=
  if contains line shaderTag then
    if contains line vertexTag then .VERTEX
    else if contains line fragmentTag then .FRAGMENT
    else type
  else type

/-- The indices `(int)type` with which line 39 indexes `ss`, one for each
line without `"#shader"`, when the loop starts with `type`: the selector, and
so the index, depends on the lines read and not on the streams. -/
def appendIndices : ShaderType → List Str → List Int
  | _, [] => []
  | type, line :: rest =>
    if contains line shaderTag then appendIndices (nextType type line) rest
    else type.toInt :: appendIndices type rest

/-- The lines that reach line 39 while `type` is `k`, when the loop starts
with `type`. -/
def sectionLines (k : ShaderType) : ShaderType → List Str → List Str
  | _, [] => []
  | type, line :: rest =>
    if contains line shaderTag then sectionLines k (nextType type line) rest
    else if type = k then line :: sectionLines k type rest
    else sectionLines k type rest

/-- The positions of the lines that reach line 39 while `type` is `k`, when
the loop starts with `type` on the line at position `pos`. -/
def sectionIndices (k : ShaderType) : ShaderType → Nat → List Str → List Nat
  | _, _, [] => []
  | type, pos, line :: rest =>
    if contains line shaderTag then sectionIndices k (nextType type line) (pos + 1) rest
    else if type = k then pos :: sectionIndices k type (pos + 1) rest
    else sectionIndices k type (pos + 1) rest

/-- A line that sets the section: it contains `"#shader"` together with
`"vertex"` or `"fragment"`. -/
def isSectionMarker (m : Str) : Bool :=
  contains m shaderTag && (contains m vertexTag || contains m fragmentTag)

/-- A vertex marker in the words of the specification: a line that contains
both `"#shader"` and `"vertex"`. -/
def isVertexMarker (m : Str) : Bool :=
  contains m shaderTag && contains m vertexTag

/-- A fragment marker in the words of the specification: a line that contains
both `"#shader"` and `"fragment"`. -/
def isFragmentMarker (m : Str) : Bool :=
  contains m shaderTag && contains m fragmentTag

/-- A line that the loop takes as a fragment marker: it contains `"#shader"`
and `"fragment"` and does not contain `"vertex"`. -/
def selectsFragment (m : Str) : Bool :=
  contains m shaderTag && !contains m vertexTag && contains m fragmentTag

/-- The most recent vertex-or-fragment marker among the lines `before`. -/
def recentMarker (before : List Str) : Option Str :=
  before.reverse.find? isSectionMarker

/-- The lines of a field in the words of the specification, for the input
lines that come after the lines `before`: exactly those lines that do not
contain `"#shader"` and whose most recent preceding vertex-or-fragment marker
is a marker of the `kind` of the field. -/
def claimedLines (kind : Str → Bool) : List Str → List Str → List Str
  | _, [] => []
  | before, l :: rest =>
    if !contains l shaderTag && (recentMarker before).any kind then
      l :: claimedLines kind (before ++ [l]) rest
    else
      claimedLines kind (before ++ [l]) rest

/-! ## Inputs named by the specification -/

/-- The line `#shader vertex`. -/
def vertexLine : Str := shaderTag ++ ' ' :: vertexTag

/-- The line `#shader fragment`. -/
def fragmentLine : Str := shaderTag ++ ' ' :: fragmentTag

/-- The line `#shader vertex fragment`, with both keywords. -/
def bothLine : Str := shaderTag ++ ' ' :: vertexTag ++ ' ' :: fragmentTag

/-- The file text `#shader vertex\n` + lines `V` + `#shader fragment\n` +
lines `F`, each line followed by a newline. -/
def shaderFileText (V F : List Str) : Str :=
  (vertexLine ++ '\n' :: joinLines V) ++ (fragmentLine ++ '\n' :: joinLines F)

/-- The lines of the text `l` followed by a newline, when `acc` holds the
characters of the current line read so far: `l` is cut at its newlines. -/
def piecesFrom : Str → Str → List Str
  | acc, [] => [acc]
  | acc, c :: cs =>
    if c = '\n' then acc :: piecesFrom [] cs else piecesFrom (acc ++ [c]) cs

/-- The lines of the text `joinLines L`: every line of `L` cut at its
newlines. -/
def cutLines : List Str → List Str
  | [] => []
  | l :: ls => piecesFrom [] l ++ cutLines ls

/-! ## Substring search -/

theorem contains_iff_occurs (s pat : Str) : contains s pat = true ↔ pat <:+: s := by
  unfold contains
  induction s with
  | nil =>
    simp only [find, List.isPrefixOf_iff_prefix, List.prefix_nil, List.infix_nil]
    by_cases h : pat = [] <;> simp [h]
  | cons c cs ih =>
    simp only [find, List.isPrefixOf_iff_prefix, List.infix_cons_iff]
    by_cases h : pat <+: c :: cs
    · simp [h]
    · simp only [h, if_false, Option.isSome_map', false_or]
      exact ih

theorem contains_false_iff (s pat : Str) : contains s pat = false ↔ ¬ pat <:+: s := by
  rw [← contains_iff_occurs]; simp

/-! ## The loop -/

theorem loopBody_marker (st : LoopState) (line : Str)
    (h : contains line shaderTag = true) :
    loopBody st line = .ok { st with type := nextType st.type line } := by
  unfold loopBody nextType
  simp only [h, if_true]
  by_cases hv : contains line vertexTag = true
  · simp [hv]
  · by_cases hf : contains line fragmentTag = true
    · simp [hv, hf]
    · simp [hv, hf]

theorem loopBody_vertex (st : LoopState) (line : Str)
    (h : contains line shaderTag = false) (ht : st.type = .VERTEX) :
    loopBody st line = .ok { st with ss := (st.ss.1 ++ (line ++ ['\n']), st.ss.2) } := by
  simp [loopBody, h, ht, streamAppend, ShaderType.toInt]

theorem loopBody_fragment (st : LoopState) (line : Str)
    (h : contains line shaderTag = false) (ht : st.type = .FRAGMENT) :
    loopBody st line = .ok { st with ss := (st.ss.1, st.ss.2 ++ (line ++ ['\n'])) } := by
  simp [loopBody, h, ht, streamAppend, ShaderType.toInt]

theorem loopBody_none (st : LoopState) (line : Str)
    (h : contains line shaderTag = false) (ht : st.type = .NONE) :
    loopBody st line = .error (.outOfBounds (-1)) := by
  simp [loopBody, h, ht, streamAppend, ShaderType.toInt]

theorem loop_append (st : LoopState) (xs ys : List Str) :
    loop st (xs ++ ys) =
      match loop st xs with
      | .ok st1 => loop st1 ys
      | .error e => .error e := by
  induction xs generalizing st with
  | nil => simp [loop]
  | cons x xs ih =>
    simp only [List.cons_append, loop]
    cases hb : loopBody st x with
    | error e => simp
    | ok st1 => simpa using ih st1

theorem joinLines_append (xs ys : List Str) :
    joinLines (xs ++ ys) = joinLines xs ++ joinLines ys := by
  induction xs with
  | nil => simp [joinLines]
  | cons x xs ih => simp [joinLines, ih]

/-- When no append uses the index -1, the loop ends normally: the selector
has followed the markers and each stream has received its lines. -/
theorem loop_ok (lines : List Str) (st : LoopState)
    (h : ∀ i ∈ appendIndices st.type lines, i ≠ -1) :
    loop st lines = .ok
      { type := lines.foldl nextType st.type
        ss := (st.ss.1 ++ joinLines (sectionLines .VERTEX st.type lines),
               st.ss.2 ++ joinLines (sectionLines .FRAGMENT st.type lines)) } := by
  induction lines generalizing st with
  | nil => simp [loop, sectionLines, joinLines]
  | cons l ls ih =>
    by_cases hm : contains l shaderTag = true
    · simp only [appendIndices, hm, if_true] at h
      simp only [loop, loopBody_marker st l hm, sectionLines, hm, if_true, List.foldl_cons]
      exact ih { st with type := nextType st.type l } h
    · have hm0 : contains l shaderTag = false := by simpa using hm
      have hnt : nextType st.type l = st.type := by simp [nextType, hm0]
      simp only [appendIndices, hm0, Bool.false_eq_true, if_false, List.mem_cons,
        forall_eq_or_imp] at h
      obtain ⟨h1, h2⟩ := h
      cases ht : st.type with
      | NONE => simp [ht, ShaderType.toInt] at h1
      | VERTEX =>
        rw [ht] at h2 hnt
        have := ih { st with ss := (st.ss.1 ++ (l ++ ['\n']), st.ss.2) } (by simpa [ht] using h2)
        simp only [loop, loopBody_vertex st l hm0 ht, sectionLines, hm0, List.foldl_cons]
        simpa [ht, hnt, joinLines] using this
      | FRAGMENT =>
        rw [ht] at h2 hnt
        have := ih { st with ss := (st.ss.1, st.ss.2 ++ (l ++ ['\n'])) } (by simpa [ht] using h2)
        simp only [loop, loopBody_fragment st l hm0 ht, sectionLines, hm0, List.foldl_cons]
        simpa [ht, hnt, joinLines] using this

/-- When some append uses the index -1, the loop stops there with the fault. -/
theorem loop_fault (lines : List Str) (st : LoopState)
    (h : (-1 : Int) ∈ appendIndices st.type lines) :
    loop st lines = .error (.outOfBounds (-1)) := by
  induction lines generalizing st with
  | nil => simp [appendIndices] at h
  | cons l ls ih =>
    by_cases hm : contains l shaderTag = true
    · simp only [appendIndices, hm, if_true] at h
      simp only [loop, loopBody_marker st l hm]
      exact ih { st with type := nextType st.type l } h
    · have hm0 : contains l shaderTag = false := by simpa using hm
      simp only [appendIndices, hm0, Bool.false_eq_true, if_false, List.mem_cons] at h
      cases ht : st.type with
      | NONE => simp [loop, loopBody_none st l hm0 ht]
      | VERTEX =>
        rw [ht] at h
        have h2 : (-1 : Int) ∈ appendIndices .VERTEX ls := by
          simpa [ShaderType.toInt] using h
        simp only [loop, loopBody_vertex st l hm0 ht]
        exact ih { st with ss := (st.ss.1 ++ (l ++ ['\n']), st.ss.2) } (by simpa [ht] using h2)
      | FRAGMENT =>
        rw [ht] at h
        have h2 : (-1 : Int) ∈ appendIndices .FRAGMENT ls := by
          simpa [ShaderType.toInt] using h
        simp only [loop, loopBody_fragment st l hm0 ht]
        exact ih { st with ss := (st.ss.1, st.ss.2 ++ (l ++ ['\n'])) } (by simpa [ht] using h2)

theorem loop_plain_vertex (L : List Str) (st : LoopState)
    (hL : ∀ l ∈ L, contains l shaderTag = false) (ht : st.type = .VERTEX) :
    loop st L = .ok { st with ss := (st.ss.1 ++ joinLines L, st.ss.2) } := by
  induction L generalizing st with
  | nil => simp [loop, joinLines]
  | cons l ls ih =>
    have h1 : contains l shaderTag = false := hL l (List.mem_cons_self _ _)
    have h2 : ∀ x ∈ ls, contains x shaderTag = false :=
      fun x hx => hL x (List.mem_cons_of_mem _ hx)
    simp only [loop, loopBody_vertex st l h1 ht]
    rw [ih { st with ss := (st.ss.1 ++ (l ++ ['\n']), st.ss.2) } h2 ht]
    simp [joinLines]

theorem loop_plain_fragment (L : List Str) (st : LoopState)
    (hL : ∀ l ∈ L, contains l shaderTag = false) (ht : st.type = .FRAGMENT) :
    loop st L = .ok { st with ss := (st.ss.1, st.ss.2 ++ joinLines L) } := by
  induction L generalizing st with
  | nil => simp [loop, joinLines]
  | cons l ls ih =>
    have h1 : contains l shaderTag = false := hL l (List.mem_cons_self _ _)
    have h2 : ∀ x ∈ ls, contains x shaderTag = false :=
      fun x hx => hL x (List.mem_cons_of_mem _ hx)
    simp only [loop, loopBody_fragment st l h1 ht]
    rw [ih { st with ss := (st.ss.1, st.ss.2 ++ (l ++ ['\n'])) } h2 ht]
    simp [joinLines]

/-! ## Occurrences of a pattern in the text of lines -/

theorem infix_append_cons {pat a b : Str} {c : Char} (hc : c ∉ pat)
    (h : pat <:+: a ++ c :: b) : pat <:+: a ∨ pat <:+: b := by
  obtain ⟨s, t, hst⟩ := h
  rcases List.append_eq_append_iff.mp hst with ⟨a1, ha, _⟩ | ⟨c1, hc1, hc2⟩
  · exact Or.inl ⟨s, a1, ha.symm⟩
  · cases c1 with
    | nil => exact Or.inl ⟨s, [], by simpa using hc1⟩
    | cons x c2 =>
      simp only [List.cons_append, List.cons.injEq] at hc2
      obtain ⟨hx, hb⟩ := hc2
      subst hx
      rcases List.append_eq_append_iff.mp hc1 with ⟨a2, _, hp⟩ | ⟨c3, hs, hc3⟩
      · exact absurd (by rw [hp]; simp) hc
      · cases c3 with
        | nil =>
          simp only [List.nil_append] at hc3
          exact absurd (by rw [← hc3]; simp) hc
        | cons y c4 =>
          simp only [List.cons_append, List.cons.injEq] at hc3
          exact Or.inr ⟨c4, t, by rw [hb, hc3.2]⟩

theorem infix_joinLines {pat : Str} (hn : '\n' ∉ pat) (hne : pat ≠ [])
    (L : List Str) (h : pat <:+: joinLines L) : ∃ l ∈ L, pat <:+: l := by
  induction L with
  | nil => exact absurd (List.infix_nil.mp (by simpa [joinLines] using h)) hne
  | cons l ls ih =>
    rcases infix_append_cons hn (by simpa [joinLines] using h) with h1 | h2
    · exact ⟨l, List.mem_cons_self _ _, h1⟩
    · obtain ⟨x, hx, hp⟩ := ih h2
      exact ⟨x, List.mem_cons_of_mem _ hx, hp⟩

/-- The text of lines without `"#shader"` is without `"#shader"`. -/
theorem contains_joinLines (L : List Str) (hL : ∀ l ∈ L, contains l shaderTag = false) :
    contains (joinLines L) shaderTag = false := by
  rw [contains_false_iff]
  intro h
  obtain ⟨l, hl, hp⟩ := infix_joinLines (by decide) (by decide) L h
  exact (contains_false_iff l shaderTag).mp (hL l hl) hp

/-- A text without `"#shader"` holds no line that has `"#shader"`. -/
theorem contains_marker_false (s m : Str) (hs : contains s shaderTag = false)
    (hm : contains m shaderTag = true) : contains s m = false := by
  rw [contains_false_iff] at hs ⊢
  rw [contains_iff_occurs] at hm
  exact fun h => hs (hm.trans h)

/-! ## The two-section file -/

theorem parseLines_sections (V F : List Str)
    (hV : ∀ l ∈ V, contains l shaderTag = false)
    (hF : ∀ l ∈ F, contains l shaderTag = false) :
    parseLines ([vertexLine] ++ V ++ [fragmentLine] ++ F) =
      .ok { VertexSource := joinLines V, FragmentSource := joinLines F } := by
  have e0 : [vertexLine] ++ V ++ [fragmentLine] ++ F =
      vertexLine :: (V ++ fragmentLine :: F) := by simp
  have e1 : loopBody initState vertexLine = .ok ⟨.VERTEX, ([], [])⟩ := by rfl
  have e2 : ∀ st : LoopState, loopBody st fragmentLine = .ok ⟨.FRAGMENT, st.ss⟩ := by
    intro st
    rw [loopBody_marker st fragmentLine (by decide)]
    rfl
  have e3 := loop_plain_vertex V ⟨.VERTEX, ([], [])⟩ hV rfl
  have e4 := loop_plain_fragment F ⟨.FRAGMENT, ([] ++ joinLines V, [])⟩ hF rfl
  rw [e0, parseLines, loop, e1]
  simp only []
  rw [loop_append, e3]
  simp only [loop, e2]
  rw [e4]
  simp

/-- Claim C1: for line lists `V` and `F` in which no line contains
`"#shader"`, parsing `["#shader vertex"] ++ V ++ ["#shader fragment"] ++ F`
returns `VertexSource` equal to each line of `V` followed by a newline and
`FragmentSource` equal to each line of `F` followed by a newline; a line with
`"#shader"`, so each of the two marker lines, occurs in neither field. -/
theorem parseLines_two_sections (V F : List Str)
    (hV : ∀ l ∈ V, contains l shaderTag = false)
    (hF : ∀ l ∈ F, contains l shaderTag = false) :
    parseLines ([vertexLine] ++ V ++ [fragmentLine] ++ F) =
        .ok { VertexSource := joinLines V, FragmentSource := joinLines F } ∧
      (∀ m, contains m shaderTag = true →
        contains (joinLines V) m = false ∧ contains (joinLines F) m = false) :=
  ⟨parseLines_sections V F hV hF, fun m hm =>
    ⟨contains_marker_false _ m (contains_joinLines V hV) hm,
      contains_marker_false _ m (contains_joinLines F hF) hm⟩⟩

/-- The theorem `parseLines_two_sections` at `V = ["a", "b"]`, `F = ["c"]`. -/
theorem parseLines_two_sections_witness :
    (∀ l ∈ [['a'], ['b']], contains l shaderTag = false) ∧
    (∀ l ∈ [['c']], contains l shaderTag = false) ∧
    parseLines ([vertexLine] ++ [['a'], ['b']] ++ [fragmentLine] ++ [['c']]) =
        .ok { VertexSource := joinLines [['a'], ['b']], FragmentSource := joinLines [['c']] } ∧
      (∀ m, contains m shaderTag = true →
        contains (joinLines [['a'], ['b']]) m = false ∧ contains (joinLines [['c']]) m = false) :=
  ⟨by decide, by decide,
    parseLines_two_sections [['a'], ['b']] [['c']] (by decide) (by decide)⟩

/-! ## Reading the lines of a text -/

theorem getlinesFrom_line (l acc rest : Str) :
    getlinesFrom acc (l ++ '\n' :: rest) = piecesFrom acc l ++ getlinesFrom [] rest := by
  induction l generalizing acc with
  | nil => simp [getlinesFrom, piecesFrom]
  | cons c cs ih =>
    by_cases hc : c = '\n'
    · simp [getlinesFrom, piecesFrom, hc, ih]
    · simp [getlinesFrom, piecesFrom, hc, ih]

theorem joinLines_piecesFrom (l acc : Str) :
    joinLines (piecesFrom acc l) = acc ++ l ++ ['\n'] := by
  induction l generalizing acc with
  | nil => simp [piecesFrom, joinLines]
  | cons c cs ih =>
    by_cases hc : c = '\n'
    · simp [piecesFrom, hc, joinLines, ih]
    · simp [piecesFrom, hc, ih]

theorem piecesFrom_occurs (l acc : Str) : ∀ p ∈ piecesFrom acc l, p <:+: acc ++ l := by
  induction l generalizing acc with
  | nil => simp [piecesFrom]
  | cons c cs ih =>
    intro p hp
    by_cases hc : c = '\n'
    · simp only [piecesFrom, hc, if_true, List.mem_cons] at hp
      rcases hp with rfl | hp
      · exact (List.prefix_append _ _).isInfix
      · have := ih [] p hp
        simp only [List.nil_append] at this
        exact this.trans ((List.suffix_cons _ cs).isInfix.trans
          (List.suffix_append acc (c :: cs)).isInfix)
    · simp only [piecesFrom, hc, if_false] at hp
      simpa using ih (acc ++ [c]) p hp

theorem getlinesFrom_joinLines (L : List Str) :
    getlinesFrom [] (joinLines L) = cutLines L := by
  induction L with
  | nil => simp [joinLines, getlinesFrom, cutLines]
  | cons l ls ih => simp [joinLines, cutLines, getlinesFrom_line, ih]

theorem joinLines_cutLines (L : List Str) : joinLines (cutLines L) = joinLines L := by
  induction L with
  | nil => simp [cutLines]
  | cons l ls ih =>
    simp [cutLines, joinLines, joinLines_append, joinLines_piecesFrom, ih]

theorem cutLines_append (xs ys : List Str) :
    cutLines (xs ++ ys) = cutLines xs ++ cutLines ys := by
  induction xs with
  | nil => simp [cutLines]
  | cons x xs ih => simp [cutLines, ih]

theorem cutLines_plain (L : List Str) (hL : ∀ l ∈ L, contains l shaderTag = false) :
    ∀ p ∈ cutLines L, contains p shaderTag = false := by
  induction L with
  | nil => simp [cutLines]
  | cons l ls ih =>
    intro p hp
    simp only [cutLines, List.mem_append] at hp
    rcases hp with hp | hp
    · have h1 := piecesFrom_occurs l [] p hp
      simp only [List.nil_append] at h1
      have h2 := (contains_false_iff l shaderTag).mp (hL l (List.mem_cons_self _ _))
      exact (contains_false_iff p shaderTag).mpr fun h => h2 (h.trans h1)
    · exact ih (fun x hx => hL x (List.mem_cons_of_mem _ hx)) p hp

theorem shaderFileText_eq (V F : List Str) :
    shaderFileText V F = joinLines ([vertexLine] ++ V ++ [fragmentLine] ++ F) := by
  simp [shaderFileText, joinLines, joinLines_append]

/-- Claim C2 as stated fails: with `V = ["#shader fragment"]` and `F = ["c"]`
the file text splits into an empty `VertexSource`, not into the text of `V`:
a line of `V` that contains `"#shader"` is taken as a marker. -/
theorem round_trip_marker_in_V :
    parseShader (fun _ => some (shaderFileText [fragmentLine] [['c']])) [] =
        .ok { VertexSource := [], FragmentSource := ['c', '\n'] } ∧
      parseShader (fun _ => some (shaderFileText [fragmentLine] [['c']])) [] ≠
        .ok { VertexSource := joinLines [fragmentLine], FragmentSource := joinLines [['c']] } := by
  have h : parseShader (fun _ => some (shaderFileText [fragmentLine] [['c']])) [] =
      .ok { VertexSource := [], FragmentSource := ['c', '\n'] } := rfl
  refine ⟨h, ?_⟩
  rw [h]
  intro h2
  cases h2

/-- Claim C2, amended: for line lists `V` and `F` in which no line contains
`"#shader"`, splitting the file whose text is `#shader vertex\n`, then each
line of `V` followed by a newline, then `#shader fragment\n`, then each line
of `F` followed by a newline, returns exactly the text of `V` in
`VertexSource` and exactly the text of `F` in `FragmentSource`. -/
theorem parseShader_round_trip (fs : Str → Option Str) (filepath : Str) (V F : List Str)
    (hfile : fs filepath = some (shaderFileText V F))
    (hV : ∀ l ∈ V, contains l shaderTag = false)
    (hF : ∀ l ∈ F, contains l shaderTag = false) :
    parseShader fs filepath =
      .ok { VertexSource := joinLines V, FragmentSource := joinLines F } := by
  have hv : cutLines [vertexLine] = [vertexLine] := by rfl
  have hf : cutLines [fragmentLine] = [fragmentLine] := by rfl
  simp only [parseShader, hfile, getlines, shaderFileText_eq, getlinesFrom_joinLines,
    cutLines_append, hv, hf]
  rw [parseLines_sections (cutLines V) (cutLines F) (cutLines_plain V hV) (cutLines_plain F hF),
    joinLines_cutLines, joinLines_cutLines]

/-- The theorem `parseShader_round_trip` at `V = ["a", "b"]`, `F = ["c"]`. -/
theorem parseShader_round_trip_witness :
    (fun _ : Str => some (shaderFileText [['a'], ['b']] [['c']])) [] =
      some (shaderFileText [['a'], ['b']] [['c']]) ∧
    (∀ l ∈ [['a'], ['b']], contains l shaderTag = false) ∧
    (∀ l ∈ [['c']], contains l shaderTag = false) ∧
    parseShader (fun _ => some (shaderFileText [['a'], ['b']] [['c']])) [] =
      .ok { VertexSource := joinLines [['a'], ['b']], FragmentSource := joinLines [['c']] } :=
  ⟨rfl, by decide, by decide,
    parseShader_round_trip (fun _ => some (shaderFileText [['a'], ['b']] [['c']])) []
      [['a'], ['b']] [['c']] rfl (by decide) (by decide)⟩

/-! ## A stream that cannot be opened -/

/-- Claim C4: when the path cannot be opened for reading, `parseShader`
returns the bundle with `VertexSource = ""` and `FragmentSource = ""`, never a
partially filled one, and no distinct error is signalled: the result is the
normal result of an empty file. -/
theorem parseShader_unopened (fs : Str → Option Str) (filepath : Str)
    (h : fs filepath = none) :
    parseShader fs filepath = .ok { VertexSource := [], FragmentSource := [] } ∧
      parseShader fs filepath = parseShader (fun _ => some []) filepath := by
  simp only [parseShader, h, getlines]
  exact ⟨rfl, rfl⟩

/-- The theorem `parseShader_unopened` on a file system without any file. -/
theorem parseShader_unopened_witness :
    (fun _ : Str => (none : Option Str)) ['r', 'e', 's'] = none ∧
    parseShader (fun _ => none) ['r', 'e', 's'] =
        .ok { VertexSource := [], FragmentSource := [] } ∧
      parseShader (fun _ => none) ['r', 'e', 's'] =
        parseShader (fun _ => some []) ['r', 'e', 's'] :=
  ⟨rfl, parseShader_unopened (fun _ => none) ['r', 'e', 's'] rfl⟩

/-! ## Lines before the first marker -/

/-- Claim C3, the code at the failing input: with `P = ["x"]` before
`R = ["#shader vertex", "a"]` the loop indexes `ss` with -1 on the line `x`
and does not return the bundle that parsing `R` alone returns; the same holds
for the file with the text `x\n`. -/
theorem parseLines_leading_line_fault :
    parseLines ([['x']] ++ [vertexLine, ['a']]) = .error (.outOfBounds (-1)) ∧
      parseLines [vertexLine, ['a']] =
        .ok { VertexSource := ['a', '\n'], FragmentSource := [] } ∧
      parseShader (fun _ => some ['x', '\n']) [] = .error (.outOfBounds (-1)) :=
  ⟨rfl, rfl, rfl⟩

/-! ## Markers -/

/-- Claim C9: a line `m` that contains `"#shader"` but neither `"vertex"` nor
`"fragment"` is inert: inserted at any position of any input it leaves the
outcome of `parseShader`, so both `VertexSource` and `FragmentSource`,
unchanged, since the loop body on `m` changes neither the selector nor a
stream. -/
theorem parseLines_inert_marker (A B : List Str) (m : Str)
    (hm : contains m shaderTag = true) (hv : contains m vertexTag = false)
    (hf : contains m fragmentTag = false) :
    parseLines (A ++ m :: B) = parseLines (A ++ B) ∧
      ∀ st : LoopState, loopBody st m = .ok st := by
  have hb : ∀ st : LoopState, loopBody st m = .ok st := by
    intro st
    simp [loopBody, hm, hv, hf]
  refine ⟨?_, hb⟩
  simp only [parseLines, loop_append]
  cases hA : loop initState A with
  | error e => rfl
  | ok st => simp only [loop, hb]

/-- The theorem `parseLines_inert_marker` for the line `#shader` put between
`#shader vertex` and `a`. -/
theorem parseLines_inert_marker_witness :
    contains shaderTag shaderTag = true ∧ contains shaderTag vertexTag = false ∧
    contains shaderTag fragmentTag = false ∧
    parseLines ([vertexLine] ++ shaderTag :: [['a']]) = parseLines ([vertexLine] ++ [['a']]) ∧
      ∀ st : LoopState, loopBody st shaderTag = .ok st :=
  ⟨by decide, by decide, by decide,
    parseLines_inert_marker [vertexLine] [['a']] shaderTag (by decide) (by decide) (by decide)⟩

/-- Claim C8 as stated fails: the line `#shader vertex fragment` contains
`"#shader"` and `"fragment"`, yet the loop body sets the selector to `VERTEX`,
not to `FRAGMENT`, and the line `x` after it is appended to `VertexSource`. -/
theorem bothLine_sets_vertex :
    contains bothLine shaderTag = true ∧ contains bothLine fragmentTag = true ∧
      loopBody initState bothLine = .ok { type := .VERTEX, ss := ([], []) } ∧
      loopBody initState bothLine ≠ .ok { type := .FRAGMENT, ss := ([], []) } ∧
      parseLines [bothLine, ['x']] =
        .ok { VertexSource := ['x', '\n'], FragmentSource := [] } := by
  refine ⟨by decide, by decide, rfl, ?_, rfl⟩
  intro h
  have h2 : loopBody initState bothLine = .ok { type := .VERTEX, ss := ([], []) } := rfl
  rw [h2] at h
  cases h

/-- Claim C8, amended: for every prior state, a line `m` with `"#shader"` and
`"vertex"` sets the selector to `VERTEX`, whatever else it contains, and a
line with `"#shader"` and `"fragment"` but without `"vertex"` sets it to
`FRAGMENT`; the lines without `"#shader"` that follow are appended to the
stream of that section, `ss[0]` for `VERTEX` and `ss[1]` for `FRAGMENT`. -/
theorem marker_sets_section (st : LoopState) (m : Str) (L : List Str)
    (hm : contains m shaderTag = true)
    (hL : ∀ l ∈ L, contains l shaderTag = false) :
    (contains m vertexTag = true →
      loopBody st m = .ok { type := .VERTEX, ss := st.ss } ∧
      loop st (m :: L) =
        .ok { type := .VERTEX, ss := (st.ss.1 ++ joinLines L, st.ss.2) }) ∧
    (contains m vertexTag = false → contains m fragmentTag = true →
      loopBody st m = .ok { type := .FRAGMENT, ss := st.ss } ∧
      loop st (m :: L) =
        .ok { type := .FRAGMENT, ss := (st.ss.1, st.ss.2 ++ joinLines L) }) := by
  constructor
  · intro hv
    have hb : loopBody st m = .ok { type := .VERTEX, ss := st.ss } := by
      simp [loopBody, hm, hv]
    refine ⟨hb, ?_⟩
    simp only [loop, hb]
    exact loop_plain_vertex L ⟨.VERTEX, st.ss⟩ hL rfl
  · intro hv hf
    have hb : loopBody st m = .ok { type := .FRAGMENT, ss := st.ss } := by
      simp [loopBody, hm, hv, hf]
    refine ⟨hb, ?_⟩
    simp only [loop, hb]
    exact loop_plain_fragment L ⟨.FRAGMENT, st.ss⟩ hL rfl

/-- The theorem `marker_sets_section` at the line `#shader vertex fragment`
followed by the line `x`, from the state before the loop. -/
theorem marker_sets_section_witness :
    (contains bothLine shaderTag = true ∧ (∀ l ∈ [['x']], contains l shaderTag = false) ∧
      contains bothLine vertexTag = true ∧
      loopBody initState bothLine = .ok { type := .VERTEX, ss := initState.ss } ∧
      loop initState (bothLine :: [['x']]) =
        .ok { type := .VERTEX, ss := (initState.ss.1 ++ joinLines [['x']], initState.ss.2) }) ∧
    (contains fragmentLine shaderTag = true ∧ contains fragmentLine vertexTag = false ∧
      contains fragmentLine fragmentTag = true ∧
      loopBody initState fragmentLine = .ok { type := .FRAGMENT, ss := initState.ss } ∧
      loop initState (fragmentLine :: [['x']]) =
        .ok { type := .FRAGMENT, ss := (initState.ss.1, initState.ss.2 ++ joinLines [['x']]) }) :=
  ⟨⟨by decide, by decide, by decide,
      (marker_sets_section initState bothLine [['x']] (by decide) (by decide)).1 (by decide)⟩,
    ⟨by decide, by decide, by decide,
      (marker_sets_section initState fragmentLine [['x']] (by decide) (by decide)).2
        (by decide) (by decide)⟩⟩

/-! ## A file with a vertex section only -/

theorem loop_vertex_only (L : List Str) (st : LoopState) (ht : st.type = .VERTEX)
    (hL : ∀ l ∈ L, ¬ (contains l shaderTag = true ∧ contains l fragmentTag = true)) :
    loop st L = .ok
      { st with ss := (st.ss.1 ++ joinLines (L.filter fun l => !contains l shaderTag),
                       st.ss.2) } := by
  induction L generalizing st with
  | nil => simp [loop, joinLines]
  | cons l ls ih =>
    have h1 := hL l (List.mem_cons_self _ _)
    have h2 : ∀ x ∈ ls, ¬ (contains x shaderTag = true ∧ contains x fragmentTag = true) :=
      fun x hx => hL x (List.mem_cons_of_mem _ hx)
    by_cases hm : contains l shaderTag = true
    · have hf : contains l fragmentTag = false := by
        cases hc : contains l fragmentTag with
        | false => rfl
        | true => exact absurd ⟨hm, hc⟩ h1
      have hn : nextType st.type l = .VERTEX := by
        by_cases hv : contains l vertexTag = true
        · simp [nextType, hm, hv]
        · simp [nextType, hm, hv, hf, ht]
      simp only [loop, loopBody_marker st l hm, hn]
      rw [ih ⟨.VERTEX, st.ss⟩ rfl h2]
      simp [hm, ht]
    · have hm0 : contains l shaderTag = false := by simpa using hm
      simp only [loop, loopBody_vertex st l hm0 ht]
      rw [ih ⟨st.type, (st.ss.1 ++ (l ++ ['\n']), st.ss.2)⟩ ht h2]
      simp [hm0, joinLines]

/-- Claim C6: for every input whose first line `m` is a vertex marker (it
contains `"#shader"` and `"vertex"`) and in which no line contains both
`"#shader"` and `"fragment"`, `parseShader` returns `FragmentSource` empty and
`VertexSource` equal to the lines without `"#shader"`, in order, each
followed by a newline. -/
theorem parseLines_vertex_only (m : Str) (rest : List Str)
    (hm : contains m shaderTag = true ∧ contains m vertexTag = true)
    (hno : ∀ l ∈ m :: rest, ¬ (contains l shaderTag = true ∧ contains l fragmentTag = true)) :
    parseLines (m :: rest) = .ok
      { VertexSource := joinLines ((m :: rest).filter fun l => !contains l shaderTag)
        FragmentSource := [] } := by
  have hb : loopBody initState m = .ok ⟨.VERTEX, ([], [])⟩ := by
    simp [loopBody, hm.1, hm.2, initState]
  have h2 : ∀ x ∈ rest, ¬ (contains x shaderTag = true ∧ contains x fragmentTag = true) :=
    fun x hx => hno x (List.mem_cons_of_mem _ hx)
  simp only [parseLines, loop, hb]
  rw [loop_vertex_only rest ⟨.VERTEX, ([], [])⟩ rfl h2]
  simp [hm.1]

/-- The theorem `parseLines_vertex_only` on the lines `#shader vertex`, `a`,
`#shader`, `b`. -/
theorem parseLines_vertex_only_witness :
    (contains vertexLine shaderTag = true ∧ contains vertexLine vertexTag = true) ∧
    (∀ l ∈ vertexLine :: [['a'], shaderTag, ['b']],
      ¬ (contains l shaderTag = true ∧ contains l fragmentTag = true)) ∧
    parseLines (vertexLine :: [['a'], shaderTag, ['b']]) = .ok
      { VertexSource :=
          joinLines ((vertexLine :: [['a'], shaderTag, ['b']]).filter
            fun l => !contains l shaderTag)
        FragmentSource := [] } :=
  ⟨by decide, by decide,
    parseLines_vertex_only vertexLine [['a'], shaderTag, ['b']] (by decide) (by decide)⟩

/-! ## The index of the appends -/

theorem nextType_plain (t : ShaderType) (l : Str) (h : contains l shaderTag = false) :
    nextType t l = t := by
  simp [nextType, h]

theorem nextType_eq_none (t : ShaderType) (l : Str) :
    nextType t l = .NONE ↔ t = .NONE ∧ isSectionMarker l = false := by
  unfold nextType isSectionMarker
  cases contains l shaderTag <;> cases contains l vertexTag <;>
    cases contains l fragmentTag <;> simp

theorem foldl_nextType_none (P : List Str) (t : ShaderType) :
    P.foldl nextType t = .NONE ↔ t = .NONE ∧ ∀ m ∈ P, isSectionMarker m = false := by
  induction P generalizing t with
  | nil => simp
  | cons p ps ih =>
    simp only [List.foldl_cons, ih, nextType_eq_none, List.mem_cons, forall_eq_or_imp]
    tauto

theorem mem_appendIndices (lines : List Str) (t : ShaderType) (i : Int) :
    i ∈ appendIndices t lines ↔
      ∃ P l R, lines = P ++ l :: R ∧ contains l shaderTag = false ∧
        (P.foldl nextType t).toInt = i := by
  induction lines generalizing t with
  | nil => simp [appendIndices]
  | cons x xs ih =>
    by_cases hx : contains x shaderTag = true
    · simp only [appendIndices, hx, if_true, ih]
      constructor
      · rintro ⟨P, l, R, h1, h2, h3⟩
        exact ⟨x :: P, l, R, by simp [h1], h2, by simpa using h3⟩
      · rintro ⟨P, l, R, h1, h2, h3⟩
        cases P with
        | nil =>
          simp only [List.nil_append, List.cons.injEq] at h1
          rw [← h1.1, hx] at h2
          cases h2
        | cons p P =>
          simp only [List.cons_append, List.cons.injEq] at h1
          exact ⟨P, l, R, h1.2, h2, by simpa [h1.1] using h3⟩
    · have hx0 : contains x shaderTag = false := by simpa using hx
      simp only [appendIndices, hx0, Bool.false_eq_true, if_false, List.mem_cons, ih]
      constructor
      · rintro (h | ⟨P, l, R, h1, h2, h3⟩)
        · exact ⟨[], x, xs, rfl, hx0, by simp [h]⟩
        · exact ⟨x :: P, l, R, by simp [h1], h2, by simpa [nextType_plain t x hx0] using h3⟩
      · rintro ⟨P, l, R, h1, h2, h3⟩
        cases P with
        | nil => exact Or.inl (by simpa using h3.symm)
        | cons p P =>
          simp only [List.cons_append, List.cons.injEq] at h1
          refine Or.inr ⟨P, l, R, h1.2, h2, ?_⟩
          rw [List.foldl_cons, ← h1.1, nextType_plain t x hx0] at h3
          exact h3

theorem toInt_eq_neg_one (t : ShaderType) : t.toInt = -1 ↔ t = .NONE := by
  cases t <;> simp [ShaderType.toInt]

theorem toInt_cases (t : ShaderType) : t.toInt = -1 ∨ t.toInt = 0 ∨ t.toInt = 1 := by
  cases t <;> simp [ShaderType.toInt]

/-- Every line without `"#shader"` comes after a section marker exactly when
no append uses an index other than 0 and 1. -/
theorem preceded_iff (lines : List Str) :
    (∀ P l R, lines = P ++ l :: R → contains l shaderTag = false →
        ∃ m ∈ P, isSectionMarker m = true) ↔
      ∀ i ∈ appendIndices .NONE lines, i = 0 ∨ i = 1 := by
  constructor
  · intro h i hi
    obtain ⟨P, l, R, h1, h2, h3⟩ := (mem_appendIndices lines .NONE i).mp hi
    obtain ⟨m, hm, hs⟩ := h P l R h1 h2
    have hne : P.foldl nextType .NONE ≠ .NONE := by
      intro hn
      have := ((foldl_nextType_none P .NONE).mp hn).2 m hm
      rw [hs] at this
      cases this
    rcases toInt_cases (P.foldl nextType .NONE) with h4 | h4 | h4
    · exact absurd ((toInt_eq_neg_one _).mp h4) hne
    · exact Or.inl (h3 ▸ h4)
    · exact Or.inr (h3 ▸ h4)
  · intro h P l R h1 h2
    by_contra hc
    have hall : ∀ m ∈ P, isSectionMarker m = false := by
      intro m hm
      cases hs : isSectionMarker m with
      | false => rfl
      | true => exact absurd ⟨m, hm, hs⟩ hc
    have hn : P.foldl nextType .NONE = .NONE := (foldl_nextType_none P .NONE).mpr ⟨rfl, hall⟩
    have hmem : (-1 : Int) ∈ appendIndices .NONE lines :=
      (mem_appendIndices lines .NONE (-1)).mpr ⟨P, l, R, h1, h2, by rw [hn]; rfl⟩
    rcases h (-1) hmem with h0 | h0 <;> simp at h0

theorem parseLines_ok_iff (lines : List Str) :
    (∃ r, parseLines lines = .ok r) ↔ ∀ i ∈ appendIndices .NONE lines, i = 0 ∨ i = 1 := by
  constructor
  · rintro ⟨r, hr⟩ i hi
    by_cases hneg : (-1 : Int) ∈ appendIndices .NONE lines
    · have := loop_fault lines initState hneg
      simp [parseLines, this] at hr
    · obtain ⟨P, l, R, _, _, h3⟩ := (mem_appendIndices lines .NONE i).mp hi
      rcases toInt_cases (P.foldl nextType .NONE) with h4 | h4 | h4
      · exact absurd (by rw [← h3, h4] at hi; exact hi) hneg
      · exact Or.inl (h3 ▸ h4)
      · exact Or.inr (h3 ▸ h4)
  · intro h
    have h1 : ∀ i ∈ appendIndices initState.type lines, i ≠ -1 := by
      intro i hi
      rcases h i hi with h0 | h0 <;> simp [h0]
    exact ⟨_, by rw [parseLines, loop_ok lines initState h1]⟩

/-- Claim C10: the index `(int)type` of `ss[(int)type]` is 0 or 1 at every
append if and only if every input line without `"#shader"` is preceded by a
line that contains `"#shader"` together with `"vertex"` or `"fragment"`, and
these are the inputs on which the loop ends without a fault; for an input
with a line without `"#shader"` before the first such marker the selector is
still `NONE` there, the index is -1, outside the two-element array, and the
loop stops with that fault. -/
theorem append_index_bounds (lines : List Str) :
    ((∀ i ∈ appendIndices .NONE lines, i = 0 ∨ i = 1) ↔
      (∀ P l R, lines = P ++ l :: R → contains l shaderTag = false →
        ∃ m ∈ P, isSectionMarker m = true)) ∧
    ((∀ i ∈ appendIndices .NONE lines, i = 0 ∨ i = 1) ↔ ∃ r, parseLines lines = .ok r) ∧
    (∀ P l R, lines = P ++ l :: R → contains l shaderTag = false →
      (∀ m ∈ P, isSectionMarker m = false) →
        P.foldl nextType .NONE = .NONE ∧ (-1 : Int) ∈ appendIndices .NONE lines ∧
        streamAppend ([], []) (-1) (l ++ ['\n']) = .error (.outOfBounds (-1)) ∧
        parseLines lines = .error (.outOfBounds (-1))) := by
  refine ⟨(preceded_iff lines).symm, (parseLines_ok_iff lines).symm, ?_⟩
  intro P l R h1 h2 hall
  have hn : P.foldl nextType .NONE = .NONE := (foldl_nextType_none P .NONE).mpr ⟨rfl, hall⟩
  have hmem : (-1 : Int) ∈ appendIndices .NONE lines :=
    (mem_appendIndices lines .NONE (-1)).mpr ⟨P, l, R, h1, h2, by rw [hn]; rfl⟩
  refine ⟨hn, hmem, rfl, ?_⟩
  simp only [parseLines, loop_fault lines initState hmem]

/-- The theorem `append_index_bounds` on the lines `#shader`, `x`,
`#shader vertex`, `a`: the line `x` comes before the first section marker. -/
theorem append_index_bounds_witness :
    [shaderTag, ['x'], vertexLine, ['a']] = [shaderTag] ++ ['x'] :: [vertexLine, ['a']] ∧
    contains ['x'] shaderTag = false ∧ (∀ m ∈ [shaderTag], isSectionMarker m = false) ∧
    ([shaderTag].foldl nextType .NONE = .NONE ∧
      (-1 : Int) ∈ appendIndices .NONE [shaderTag, ['x'], vertexLine, ['a']] ∧
      streamAppend ([], []) (-1) (['x'] ++ ['\n']) = .error (.outOfBounds (-1)) ∧
      parseLines [shaderTag, ['x'], vertexLine, ['a']] = .error (.outOfBounds (-1))) :=
  ⟨rfl, by decide, by decide,
    (append_index_bounds [shaderTag, ['x'], vertexLine, ['a']]).2.2
      [shaderTag] ['x'] [vertexLine, ['a']] rfl (by decide) (by decide)⟩

/-! ## Sections accumulate -/

theorem recentMarker_concat (bs : List Str) (b : Str) :
    recentMarker (bs ++ [b]) = if isSectionMarker b then some b else recentMarker bs := by
  simp only [recentMarker, List.reverse_append, List.reverse_cons, List.reverse_nil,
    List.nil_append, List.singleton_append, List.find?_cons]
  cases isSectionMarker b <;> simp

theorem type_vertex_iff (before : List Str) :
    before.foldl nextType .NONE = .VERTEX ↔
      (recentMarker before).any isVertexMarker = true := by
  induction before using List.reverseRecOn with
  | nil => simp [recentMarker]
  | append_singleton bs b ih =>
    rw [List.foldl_append, recentMarker_concat]
    simp only [List.foldl_cons, List.foldl_nil]
    cases h1 : contains b shaderTag <;> cases h2 : contains b vertexTag <;>
      cases h3 : contains b fragmentTag <;>
      simp [nextType, isSectionMarker, isVertexMarker, h1, h2, h3, ih]

theorem type_fragment_iff (before : List Str) :
    before.foldl nextType .NONE = .FRAGMENT ↔
      (recentMarker before).any selectsFragment = true := by
  induction before using List.reverseRecOn with
  | nil => simp [recentMarker]
  | append_singleton bs b ih =>
    rw [List.foldl_append, recentMarker_concat]
    simp only [List.foldl_cons, List.foldl_nil]
    cases h1 : contains b shaderTag <;> cases h2 : contains b vertexTag <;>
      cases h3 : contains b fragmentTag <;>
      simp [nextType, isSectionMarker, selectsFragment, h1, h2, h3, ih]

theorem sectionLines_eq_claimedLines (kind : Str → Bool) (k : ShaderType)
    (hk : ∀ before : List Str,
      before.foldl nextType .NONE = k ↔ (recentMarker before).any kind = true)
    (lines before : List Str) :
    sectionLines k (before.foldl nextType .NONE) lines = claimedLines kind before lines := by
  induction lines generalizing before with
  | nil => simp [sectionLines, claimedLines]
  | cons l ls ih =>
    have hstep : (before ++ [l]).foldl nextType .NONE =
        nextType (before.foldl nextType .NONE) l := by
      simp [List.foldl_append]
    by_cases hm : contains l shaderTag = true
    · simp only [sectionLines, claimedLines, hm, if_true, Bool.not_true, Bool.false_and,
        Bool.false_eq_true, if_false]
      rw [← hstep]
      exact ih (before ++ [l])
    · have hm0 : contains l shaderTag = false := by simpa using hm
      have hstep2 : (before ++ [l]).foldl nextType .NONE = before.foldl nextType .NONE := by
        rw [hstep, nextType_plain _ l hm0]
      have ih2 := ih (before ++ [l])
      rw [hstep2] at ih2
      simp only [sectionLines, claimedLines, hm0, Bool.false_eq_true, if_false, Bool.not_false,
        Bool.true_and]
      by_cases hkk : before.foldl nextType .NONE = k
      · rw [if_pos hkk, if_pos ((hk before).mp hkk), ih2]
      · have : ¬ ((recentMarker before).any kind = true) := fun h => hkk ((hk before).mpr h)
        rw [if_neg hkk, if_neg this, ih2]

/-- The result of `parseShader` on an input in which every line without
`"#shader"` comes after a section marker. -/
theorem parseLines_claimedLines (lines : List Str)
    (h : ∀ P l R, lines = P ++ l :: R → contains l shaderTag = false →
      ∃ m ∈ P, isSectionMarker m = true) :
    parseLines lines = .ok
      { VertexSource := joinLines (claimedLines isVertexMarker [] lines)
        FragmentSource := joinLines (claimedLines selectsFragment [] lines) } := by
  have h1 : ∀ i ∈ appendIndices initState.type lines, i ≠ -1 := by
    intro i hi
    rcases (preceded_iff lines).mp h i hi with h0 | h0 <;> simp [h0]
  have hv := sectionLines_eq_claimedLines isVertexMarker .VERTEX type_vertex_iff lines []
  have hf := sectionLines_eq_claimedLines selectsFragment .FRAGMENT type_fragment_iff lines []
  simp only [List.foldl_nil] at hv hf
  rw [parseLines, loop_ok lines initState h1]
  simp [initState, hv, hf]

theorem parseLines_reentry (A B C : List Str)
    (hA : ∀ l ∈ A, contains l shaderTag = false)
    (hB : ∀ l ∈ B, contains l shaderTag = false)
    (hC : ∀ l ∈ C, contains l shaderTag = false) :
    parseLines ([vertexLine] ++ A ++ [fragmentLine] ++ B ++ [vertexLine] ++ C) =
      .ok { VertexSource := joinLines A ++ joinLines C, FragmentSource := joinLines B } := by
  have e0 : [vertexLine] ++ A ++ [fragmentLine] ++ B ++ [vertexLine] ++ C =
      vertexLine :: (A ++ fragmentLine :: (B ++ vertexLine :: C)) := by simp
  have e1 : ∀ st : LoopState, loopBody st vertexLine = .ok ⟨.VERTEX, st.ss⟩ := by
    intro st
    rw [loopBody_marker st vertexLine (by decide)]
    rfl
  have e2 : ∀ st : LoopState, loopBody st fragmentLine = .ok ⟨.FRAGMENT, st.ss⟩ := by
    intro st
    rw [loopBody_marker st fragmentLine (by decide)]
    rfl
  have e3 := loop_plain_vertex A ⟨.VERTEX, ([], [])⟩ hA rfl
  have e4 := loop_plain_fragment B ⟨.FRAGMENT, ([] ++ joinLines A, [])⟩ hB rfl
  have e5 := loop_plain_vertex C ⟨.VERTEX, ([] ++ joinLines A, [] ++ joinLines B)⟩ hC rfl
  rw [e0, parseLines, loop, e1]
  simp only [initState]
  rw [loop_append, e3]
  simp only [loop, e2]
  rw [loop_append, e4]
  simp only [loop, e1]
  rw [e5]
  simp

/-- Claim C5 as stated fails: in `["#shader vertex fragment", "x"]` the most
recent marker before `x` contains `"#shader"` and `"fragment"`, so the claim
puts `x` into `FragmentSource` as well, while the code returns `FragmentSource`
empty and `x` in `VertexSource` only. -/
theorem accumulate_both_keywords :
    parseLines [bothLine, ['x']] =
        .ok { VertexSource := ['x', '\n'], FragmentSource := [] } ∧
      joinLines (claimedLines isVertexMarker [] [bothLine, ['x']]) = ['x', '\n'] ∧
      joinLines (claimedLines isFragmentMarker [] [bothLine, ['x']]) = ['x', '\n'] ∧
      parseLines [bothLine, ['x']] ≠
        .ok { VertexSource := joinLines (claimedLines isVertexMarker [] [bothLine, ['x']])
              FragmentSource :=
                joinLines (claimedLines isFragmentMarker [] [bothLine, ['x']]) } := by
  have h : parseLines [bothLine, ['x']] =
      .ok { VertexSource := ['x', '\n'], FragmentSource := [] } := rfl
  have hf : joinLines (claimedLines isFragmentMarker [] [bothLine, ['x']]) = ['x', '\n'] := by
    decide
  refine ⟨h, by decide, hf, ?_⟩
  rw [h, hf]
  intro h2
  cases h2

/-- Claim C5, amended: for every input in which each line without `"#shader"`
comes after a vertex-or-fragment marker, `VertexSource` is the concatenation,
in the order of the input, of line and newline for exactly the lines without
`"#shader"` whose most recent preceding vertex-or-fragment marker contains
`"vertex"`, and `FragmentSource` likewise for those whose most recent such
marker contains `"fragment"` and not `"vertex"`; and for line lists `A`, `B`,
`C` without `"#shader"`, parsing `["#shader vertex"] ++ A ++
["#shader fragment"] ++ B ++ ["#shader vertex"] ++ C` gives `VertexSource` =
the lines of `A` then the lines of `C`, and `FragmentSource` = the lines of
`B`. -/
theorem parseLines_accumulates :
    (∀ lines : List Str,
      (∀ P l R, lines = P ++ l :: R → contains l shaderTag = false →
        ∃ m ∈ P, isSectionMarker m = true) →
      parseLines lines = .ok
        { VertexSource := joinLines (claimedLines isVertexMarker [] lines)
          FragmentSource := joinLines (claimedLines selectsFragment [] lines) }) ∧
    (∀ A B C : List Str,
      (∀ l ∈ A, contains l shaderTag = false) →
      (∀ l ∈ B, contains l shaderTag = false) →
      (∀ l ∈ C, contains l shaderTag = false) →
      parseLines ([vertexLine] ++ A ++ [fragmentLine] ++ B ++ [vertexLine] ++ C) =
        .ok { VertexSource := joinLines A ++ joinLines C, FragmentSource := joinLines B }) :=
  ⟨parseLines_claimedLines, parseLines_reentry⟩

/-- The theorem `parseLines_accumulates` on the lines `#shader fragment`,
`b`, `#shader vertex fragment`, `a`, `#shader`, `c`, and at `A = ["a"]`,
`B = ["b"]`, `C = ["c"]`. -/
theorem parseLines_accumulates_witness :
    ((∀ P l R, [fragmentLine, ['b'], bothLine, ['a'], shaderTag, ['c']] = P ++ l :: R →
        contains l shaderTag = false → ∃ m ∈ P, isSectionMarker m = true) ∧
      parseLines [fragmentLine, ['b'], bothLine, ['a'], shaderTag, ['c']] = .ok
        { VertexSource := ['a', '\n', 'c', '\n'], FragmentSource := ['b', '\n'] }) ∧
    ((∀ l ∈ [['a']], contains l shaderTag = false) ∧
      (∀ l ∈ [['b']], contains l shaderTag = false) ∧
      (∀ l ∈ [['c']], contains l shaderTag = false) ∧
      parseLines ([vertexLine] ++ [['a']] ++ [fragmentLine] ++ [['b']] ++ [vertexLine] ++ [['c']]) =
        .ok { VertexSource := joinLines [['a']] ++ joinLines [['c']],
              FragmentSource := joinLines [['b']] }) :=
  ⟨⟨(preceded_iff _).mpr (by decide),
      (parseLines_accumulates.1 [fragmentLine, ['b'], bothLine, ['a'], shaderTag, ['c']]
        ((preceded_iff _).mpr (by decide))).trans rfl⟩,
    ⟨by decide, by decide, by decide,
      parseLines_accumulates.2 [['a']] [['b']] [['c']] (by decide) (by decide) (by decide)⟩⟩

/-! ## The output invariant -/

theorem sectionIndices_spec (k : ShaderType) (lines : List Str) (t : ShaderType) (pos : Nat) :
    ∀ i ∈ sectionIndices k t pos lines,
      pos ≤ i ∧ i < pos + lines.length ∧
        contains (lines.getD (i - pos) []) shaderTag = false := by
  induction lines generalizing t pos with
  | nil => simp [sectionIndices]
  | cons l ls ih =>
    have hstep : ∀ t1, ∀ i ∈ sectionIndices k t1 (pos + 1) ls,
        pos ≤ i ∧ i < pos + (l :: ls).length ∧
          contains ((l :: ls).getD (i - pos) []) shaderTag = false := by
      intro t1 i hi
      obtain ⟨h1, h2, h3⟩ := ih t1 (pos + 1) i hi
      have e : i - pos = (i - (pos + 1)) + 1 := by omega
      refine ⟨by omega, by simp only [List.length_cons]; omega, ?_⟩
      rw [e, List.getD_cons_succ]
      exact h3
    intro i hi
    by_cases hm : contains l shaderTag = true
    · simp only [sectionIndices, hm, if_true] at hi
      exact hstep _ i hi
    · have hm0 : contains l shaderTag = false := by simpa using hm
      simp only [sectionIndices, hm0, Bool.false_eq_true, if_false] at hi
      by_cases hk : t = k
      · simp only [hk, if_true, List.mem_cons] at hi
        rcases hi with rfl | hi
        · exact ⟨le_refl _, by simp, by simpa using hm0⟩
        · exact hstep _ i hi
      · simp only [hk, if_false] at hi
        exact hstep _ i hi

theorem sectionIndices_pairwise (k : ShaderType) (lines : List Str) (t : ShaderType)
    (pos : Nat) : (sectionIndices k t pos lines).Pairwise (· < ·) := by
  induction lines generalizing t pos with
  | nil => simp [sectionIndices]
  | cons l ls ih =>
    by_cases hm : contains l shaderTag = true
    · simp only [sectionIndices, hm, if_true]
      exact ih _ _
    · have hm0 : contains l shaderTag = false := by simpa using hm
      simp only [sectionIndices, hm0, Bool.false_eq_true, if_false]
      by_cases hk : t = k
      · simp only [hk, if_true, List.pairwise_cons]
        refine ⟨fun j hj => ?_, ih _ _⟩
        have := (sectionIndices_spec k ls k (pos + 1) j hj).1
        omega
      · simp only [hk, if_false]
        exact ih _ _

theorem sectionIndices_map (k : ShaderType) (lines : List Str) (t : ShaderType) (pos : Nat) :
    (sectionIndices k t pos lines).map (fun i => lines.getD (i - pos) []) =
      sectionLines k t lines := by
  induction lines generalizing t pos with
  | nil => simp [sectionIndices, sectionLines]
  | cons l ls ih =>
    have hstep : ∀ t1, (sectionIndices k t1 (pos + 1) ls).map
        (fun i => (l :: ls).getD (i - pos) []) = sectionLines k t1 ls := by
      intro t1
      rw [← ih t1 (pos + 1)]
      apply List.map_congr_left
      intro i hi
      have h1 := (sectionIndices_spec k ls t1 (pos + 1) i hi).1
      have e : i - pos = (i - (pos + 1)) + 1 := by omega
      rw [e, List.getD_cons_succ]
    by_cases hm : contains l shaderTag = true
    · simp only [sectionIndices, sectionLines, hm, if_true]
      exact hstep _
    · have hm0 : contains l shaderTag = false := by simpa using hm
      simp only [sectionIndices, sectionLines, hm0, Bool.false_eq_true, if_false]
      by_cases hk : t = k
      · simp only [hk, if_true, List.map_cons, Nat.sub_self, List.getD_cons_zero]
        rw [hstep k]
      · simp only [hk, if_false]
        exact hstep _

theorem sectionIndices_disjoint (k1 k2 : ShaderType) (hne : k1 ≠ k2) (lines : List Str)
    (t : ShaderType) (pos : Nat) :
    ∀ i ∈ sectionIndices k1 t pos lines, i ∉ sectionIndices k2 t pos lines := by
  induction lines generalizing t pos with
  | nil => simp [sectionIndices]
  | cons l ls ih =>
    intro i hi
    by_cases hm : contains l shaderTag = true
    · simp only [sectionIndices, hm, if_true] at hi ⊢
      exact ih _ _ i hi
    · have hm0 : contains l shaderTag = false := by simpa using hm
      simp only [sectionIndices, hm0, Bool.false_eq_true, if_false] at hi ⊢
      by_cases hk1 : t = k1
      · have hk2 : ¬ t = k2 := fun h => hne (hk1.symm.trans h)
        simp only [hk1, if_true, List.mem_cons] at hi
        rw [if_neg hk2]
        rcases hi with rfl | hi
        · intro hmem
          have := (sectionIndices_spec k2 ls t (i + 1) i hmem).1
          omega
        · rw [hk1]
          exact ih _ _ i hi
      · simp only [hk1, if_false] at hi
        by_cases hk2 : t = k2
        · subst hk2
          simp only [if_true, List.mem_cons, not_or]
          refine ⟨?_, ih _ _ i hi⟩
          have := (sectionIndices_spec k1 ls t (pos + 1) i hi).1
          omega
        · simp only [hk2, if_false]
          exact ih _ _ i hi

theorem sectionLines_plain (k : ShaderType) (lines : List Str) (t : ShaderType) :
    ∀ l ∈ sectionLines k t lines, contains l shaderTag = false := by
  induction lines generalizing t with
  | nil => simp [sectionLines]
  | cons x xs ih =>
    intro l hl
    by_cases hm : contains x shaderTag = true
    · simp only [sectionLines, hm, if_true] at hl
      exact ih _ l hl
    · have hm0 : contains x shaderTag = false := by simpa using hm
      simp only [sectionLines, hm0, Bool.false_eq_true, if_false] at hl
      by_cases hk : t = k
      · simp only [hk, if_true, List.mem_cons] at hl
        rcases hl with rfl | hl
        · exact hm0
        · exact ih _ l hl
      · simp only [hk, if_false] at hl
        exact ih _ l hl

/-- A bundle that `parseShader` returns holds the lines that reached line 39
under each of the two sections. -/
theorem parseLines_ok_eq (lines : List Str) (r : ShaderProgramSource)
    (h : parseLines lines = .ok r) :
    r = { VertexSource := joinLines (sectionLines .VERTEX .NONE lines)
          FragmentSource := joinLines (sectionLines .FRAGMENT .NONE lines) } := by
  have h1 : ∀ i ∈ appendIndices initState.type lines, i ≠ -1 := by
    intro i hi
    rcases (parseLines_ok_iff lines).mp ⟨r, h⟩ i hi with h0 | h0 <;> simp [h0]
  rw [parseLines, loop_ok lines initState h1] at h
  simp only [initState, List.nil_append, Except.ok.injEq] at h
  exact h.symm

/-- Claim C7: for every input and every bundle that `parseShader` returns on
it, the lines of `VertexSource` are the input lines at the strictly
increasing positions `iv` and the lines of `FragmentSource` those at the
strictly increasing positions `jf`, no position lies in both lists (each
input line is copied to at most one field and at most once), no chosen line
contains `"#shader"`, and neither output string contains `"#shader"`, so that
no line with `"#shader"` occurs in either field. -/
theorem parseLines_output_invariant (lines : List Str) (r : ShaderProgramSource)
    (h : parseLines lines = .ok r) :
    ∃ iv jf : List Nat,
      iv.Pairwise (· < ·) ∧ jf.Pairwise (· < ·) ∧
      (∀ i ∈ iv, i < lines.length) ∧ (∀ j ∈ jf, j < lines.length) ∧
      (∀ i ∈ iv, i ∉ jf) ∧
      r.VertexSource = joinLines (iv.map fun i => lines.getD i []) ∧
      r.FragmentSource = joinLines (jf.map fun j => lines.getD j []) ∧
      (∀ i ∈ iv ++ jf, contains (lines.getD i []) shaderTag = false) ∧
      contains r.VertexSource shaderTag = false ∧
      contains r.FragmentSource shaderTag = false ∧
      (∀ m, contains m shaderTag = true →
        contains r.VertexSource m = false ∧ contains r.FragmentSource m = false) := by
  have hr := parseLines_ok_eq lines r h
  have hV : contains r.VertexSource shaderTag = false := by
    rw [hr]
    exact contains_joinLines _ (sectionLines_plain .VERTEX lines .NONE)
  have hF : contains r.FragmentSource shaderTag = false := by
    rw [hr]
    exact contains_joinLines _ (sectionLines_plain .FRAGMENT lines .NONE)
  refine ⟨sectionIndices .VERTEX .NONE 0 lines, sectionIndices .FRAGMENT .NONE 0 lines,
    sectionIndices_pairwise _ _ _ _, sectionIndices_pairwise _ _ _ _, ?_, ?_,
    sectionIndices_disjoint _ _ (by decide) _ _ _, ?_, ?_, ?_, hV, hF, ?_⟩
  · intro i hi
    simpa using (sectionIndices_spec _ _ _ _ i hi).2.1
  · intro i hi
    simpa using (sectionIndices_spec _ _ _ _ i hi).2.1
  · rw [hr]
    simpa using congrArg joinLines (sectionIndices_map .VERTEX lines .NONE 0).symm
  · rw [hr]
    simpa using congrArg joinLines (sectionIndices_map .FRAGMENT lines .NONE 0).symm
  · intro i hi
    rcases List.mem_append.mp hi with hi | hi
    · simpa using (sectionIndices_spec _ _ _ _ i hi).2.2
    · simpa using (sectionIndices_spec _ _ _ _ i hi).2.2
  · intro m hm
    exact ⟨contains_marker_false _ m hV hm, contains_marker_false _ m hF hm⟩

/-- The theorem `parseLines_output_invariant` on the lines `#shader vertex`,
`a`, `#shader fragment`, `b`. -/
theorem parseLines_output_invariant_witness :
    parseLines [vertexLine, ['a'], fragmentLine, ['b']] =
      .ok { VertexSource := ['a', '\n'], FragmentSource := ['b', '\n'] } ∧
    ∃ iv jf : List Nat,
      iv.Pairwise (· < ·) ∧ jf.Pairwise (· < ·) ∧
      (∀ i ∈ iv, i < [vertexLine, ['a'], fragmentLine, ['b']].length) ∧
      (∀ j ∈ jf, j < [vertexLine, ['a'], fragmentLine, ['b']].length) ∧
      (∀ i ∈ iv, i ∉ jf) ∧
      ['a', '\n'] =
        joinLines (iv.map fun i => [vertexLine, ['a'], fragmentLine, ['b']].getD i []) ∧
      ['b', '\n'] =
        joinLines (jf.map fun j => [vertexLine, ['a'], fragmentLine, ['b']].getD j []) ∧
      (∀ i ∈ iv ++ jf,
        contains ([vertexLine, ['a'], fragmentLine, ['b']].getD i []) shaderTag = false) ∧
      contains ['a', '\n'] shaderTag = false ∧
      contains ['b', '\n'] shaderTag = false ∧
      (∀ m, contains m shaderTag = true →
        contains ['a', '\n'] m = false ∧ contains ['b', '\n'] m = false) :=
  ⟨rfl, parseLines_output_invariant [vertexLine, ['a'], fragmentLine, ['b']]
    { VertexSource := ['a', '\n'], FragmentSource := ['b', '\n'] } rfl⟩

end Application
